import Mathlib

/-!
Shallow embedding of the flux-conserving rebinning routine
`XSpectrum1D.rebin` from `linetools/spectra/utils.py`, together with the
small parts of the surrounding class (`sig`, `from_array`) that the
verified properties refer to.

Numerical arrays are modelled as `List ℚ` (exact rational arithmetic in
place of IEEE floats; every arithmetic step of the source is a ratio of
sums and products of the inputs, so the rational model computes the same
field expressions the float code evaluates, without rounding).  NumPy's
`np.roll(a, k)` is `List.rotate` (left rotation by `-k mod n`), in-place
element assignment `a[i] = v` is `List.set`, and `scipy.interpolate.interp1d`
with `bounds_error=False, fill_value=0.` is the piecewise-linear lookup
`interpL` below, which returns `0` outside the closed span of its knots.

Division by zero: NumPy emits non-finite values (`inf`/`nan`) and raises
nothing; in the `ℚ` model `x / 0 = 0`, which likewise raises nothing.  The
theorems about degenerate bins only rely on the absence of a signalled
error, which both semantics share.
-/

/-- One path of numpy's broadcasting for the product `flux * dwv` of two
one-dimensional arrays: lengths must agree unless one operand has length 1,
in which case it is broadcast across the other. -/
def prodB (fx d : List ℚ) : List ℚ :=
  if fx.length = 1 then d.map (fun x => fx.getD 0 0 * x)
  else if d.length = 1 then fx.map (fun y => y * d.getD 0 0)
  else List.zipWith (fun x y => x * y) fx d

/-- Endpoints of the original pixels, lines 206-208 of `utils.py`:
`wvh = (wv + np.roll(wv, -1))/2` followed by the in-place fix
`wvh[npix-1] = wv[npix-1] + (wv[npix-1] - wv[npix-2])/2`.
(`np.roll(a, -1)` is `a.rotate 1`; Python's `a[-1]` on a length-1 array is
`a[0]`, which Nat subtraction reproduces.) -/
def wvh (wv : List ℚ) : List ℚ :=
  (List.zipWith (fun x y => (x + y) / 2) wv (wv.rotate 1)).set (wv.length - 1)
    (wv.getD (wv.length - 1) 0 +
      (wv.getD (wv.length - 1) 0 - wv.getD (wv.length - 2) 0) / 2)

/-- Widths of the original pixels, lines 209-210 of `utils.py`:
`dwv = wvh - np.roll(wvh, 1)` followed by `dwv[0] = 2*(wvh[0]-wv[0])`.
(`np.roll(a, 1)` is `a.rotate (n-1)`.) -/
def dwv (wv : List ℚ) : List ℚ :=
  (List.zipWith (fun x y => x - y) (wvh wv) ((wvh wv).rotate ((wvh wv).length - 1))).set 0
    (2 * ((wvh wv).getD 0 0 - wv.getD 0 0))

/-- Running cumulative sum with an explicit accumulator (np.cumsum). -/
def cumAux (acc : ℚ) : List ℚ → List ℚ
  | [] => []
  | x :: xs => (acc + x) :: cumAux (acc + x) xs

/-- The running sum `np.cumsum`, line 213 of `utils.py`. -/
def cumsum (l : List ℚ) : List ℚ := cumAux 0 l

/-- The lookup `scipy.interpolate.interp1d(xs, ys, fill_value=0., bounds_error=False)`
evaluated at `x`, for knot abscissae listed in increasing order (which is
how `rebin` always builds them from a monotonic wavelength array): linear
interpolation between consecutive knots, the fill value `0` strictly
outside the closed span of the knots. -/
def interpL : List (ℚ × ℚ) → ℚ → ℚ
  | [], _ => 0
  | [p], x => if x = p.1 then p.2 else 0
  | p :: q :: rest, x =>
    if x < p.1 then 0
    else if x ≤ q.1 then p.2 + (q.2 - p.2) * (x - p.1) / (q.1 - p.1)
    else interpL (q :: rest) x

/-- The knot list `(wvh, cumsum(flux*dwv))` of the cumulative flux curve,
lines 212-216 of `utils.py`. -/
def srcPts (wv fx : List ℚ) : List (ℚ × ℚ) :=
  (wvh wv).zip (cumsum (prodB fx (dwv wv)))

/-- The interpolated cumulative flux curve `fcum`, line 216 of `utils.py`. -/
def fcum (wv fx : List ℚ) (x : ℚ) : ℚ := interpL (srcPts wv fx) x

/-- Endpoints of the new pixels with the padded starting point, lines
218-225 of `utils.py`: `nwvh` is built from `new_wv` exactly as `wvh` was
built from the original wavelengths, and `bwv = [new_wv[0] - (new_wv[1]-new_wv[0])/2] ++ nwvh`. -/
def bwv (nwv : List ℚ) : List ℚ :=
  (nwv.getD 0 0 - (nwv.getD 1 0 - nwv.getD 0 0) / 2) :: wvh nwv

/-- The cumulative curve evaluated at the new endpoints (line 228) with the
single endpoint fix of lines 231-232: only when the *last* new endpoint
exceeds the last original endpoint is that one value replaced by the final
cumulative sum.  All other endpoints keep what `interpL` returned, which is
the fill value `0` whenever they lie strictly outside the original span. -/
def newcum (wv fx nwv : List ℚ) : List ℚ :=
  if (wvh wv).getD ((wvh wv).length - 1) 0 < (bwv nwv).getD ((bwv nwv).length - 1) 0 then
    ((bwv nwv).map (fcum wv fx)).set (((bwv nwv).map (fcum wv fx)).length - 1)
      ((cumsum (prodB fx (dwv wv))).getD ((cumsum (prodB fx (dwv wv))).length - 1) 0)
  else (bwv nwv).map (fcum wv fx)

/-- The arithmetic core of `rebin`, lines 206-241 of `utils.py`, for inputs
that pass all the implicit shape constraints: the rebinned flux
`new_fx = ((np.roll(newcum,-1)-newcum)[:-1]) / (bwv - np.roll(bwv,1))[1:]`. -/
def rebinCore (wv fx nwv : List ℚ) : List ℚ :=
  List.zipWith (fun x y => x / y)
    (List.zipWith (fun x y => x - y) (newcum wv fx nwv).tail (newcum wv fx nwv))
    (List.zipWith (fun x y => x - y) (bwv nwv).tail (bwv nwv))

/-- The kinds of exception the interpreter raises while executing `rebin`:
`valueError` for a numpy broadcasting mismatch (`flux * dwv` with
incompatible lengths) and for `interp1d` on fewer than two knots,
`indexError` for a scalar index out of range (`new_wv[1]` when the target
has fewer than two samples, or indexing an empty wavelength array). -/
inductive PyErr
  | valueError
  | indexError
deriving DecidableEq, Repr

/-- The method `XSpectrum1D.rebin` at the level of plain arrays, including the failure
modes of the straight-line code in source order: an empty wavelength array
fails indexing at line 206; `flux * dwv` (line 213) fails broadcasting when
the lengths disagree and neither is 1; `interp1d` (line 216) rejects fewer
than two knots; `new_wv[1]` (line 224, and `new_wv[nnew-1]` at line 221 for
an empty target) fails for a target of fewer than two samples.  The method
performs no other input validation: monotonicity and bin widths are never
checked. -/
def rebin (wv fx nwv : List ℚ) : Except PyErr (List ℚ) :=
  if wv.length = 0 then .error .indexError
  else if ¬(fx.length = wv.length ∨ fx.length = 1 ∨ wv.length = 1) then .error .valueError
  else if wv.length < 2 then .error .valueError
  else if nwv.length < 2 then .error .indexError
  else .ok (rebinCore wv fx nwv)

/-- Length of the overlap of the interval `[lo, hi]` with the interval
`[a, b]` (zero when they are disjoint).  Used to express "source flux times
source bin width over a physical wavelength interval", with a partially
covered bin contributing its covered fraction. -/
def overlapLen (lo hi a b : ℚ) : ℚ := max 0 (min b hi - max a lo)

/-- Integral over `[a, b]` of the step function whose value between two
consecutive knots is the slope of the piecewise-linear interpolant there. -/
def stepIntegral : List (ℚ × ℚ) → ℚ → ℚ → ℚ
  | [], _, _ => 0
  | [_], _, _ => 0
  | p :: q :: rest, a, b =>
    (q.2 - p.2) / (q.1 - p.1) * overlapLen p.1 q.1 a b + stepIntegral (q :: rest) a b

/-- The source bins as `(lower edge, upper edge)` pairs: bin `i` extends
from `wvh[i] - dwv[i]` to `wvh[i]`. -/
def binsOf (wv : List ℚ) : List (ℚ × ℚ) :=
  List.zipWith (fun h d => (h - d, h)) (wvh wv) (dwv wv)

/-- Total source flux times source bin width over the physical wavelength
interval `[a, b]`: each source bin contributes its flux density times the
length of its overlap with `[a, b]`. -/
def srcOverlapSum (wv fx : List ℚ) (a b : ℚ) : ℚ :=
  (List.zipWith (fun f bin => f * overlapLen bin.1 bin.2 a b) fx (binsOf wv)).sum

/-- The uncertainty attached to a spectrum: either a standard-deviation
array (`astropy.nddata.StdDevUncertainty`) or some other uncertainty type. -/
inductive Uncert
  | stdDev (arr : List ℚ)
  | generic (arr : List ℚ)
deriving DecidableEq, Repr

/-- The state of an `XSpectrum1D` that `rebin` can read or write:
dispersion (wavelength) array, flux array, optional uncertainty. -/
structure XSpec where
  dispersion : List ℚ
  flux : List ℚ
  uncertainty : Option Uncert
deriving DecidableEq, Repr

/-- The constructor `XSpectrum1D.from_array(wv, fx, uncertainty=unc)`: builds a fresh
spectrum from the given arrays. -/
def fromArray (wv fx : List ℚ) (unc : Option Uncert) : XSpec := ⟨wv, fx, unc⟩

/-- The `sig` property, lines 36-43 of `utils.py`: the standard-deviation
array when the uncertainty is a `StdDevUncertainty`, otherwise `None`. -/
def XSpec.sig (s : XSpec) : Option (List ℚ) :=
  match s.uncertainty with
  | some (Uncert.stdDev a) => some a
  | _ => none

/-- The `rebin` method as a state transformer on the receiver: the pair of
the post-state of `self` (the body assigns to no attribute of `self`, so
the translation of every statement leaves it untouched) and the returned
spectrum `XSpectrum1D.from_array(new_wv, new_fx)` (line 244), built with
`from_array`'s default uncertainty `None`. -/
def XSpec.rebinM (s : XSpec) (nwv : List ℚ) : XSpec × Except PyErr XSpec :=
  (s, (rebin s.dispersion s.flux nwv).map (fun nfx => fromArray nwv nfx none))

/-! ### Index bookkeeping for the derived arrays -/

lemma length_wvh (wv : List ℚ) : (wvh wv).length = wv.length := by
  simp [wvh]

lemma length_dwv (wv : List ℚ) : (dwv wv).length = wv.length := by
  simp [dwv, length_wvh]

lemma length_cumAux (acc : ℚ) (l : List ℚ) : (cumAux acc l).length = l.length := by
  induction l generalizing acc with
  | nil => rfl
  | cons x xs ih => simp [cumAux, ih]

lemma length_cumsum (l : List ℚ) : (cumsum l).length = l.length := length_cumAux 0 l

lemma length_bwv (nwv : List ℚ) : (bwv nwv).length = nwv.length + 1 := by
  simp [bwv, length_wvh]

lemma getD_zipWith (f : ℚ → ℚ → ℚ) {l1 l2 : List ℚ} {i : ℕ}
    (h1 : i < l1.length) (h2 : i < l2.length) :
    (List.zipWith f l1 l2).getD i 0 = f (l1.getD i 0) (l2.getD i 0) := by
  rw [List.getD_eq_getElem _ _ (by rw [List.length_zipWith]; exact lt_min h1 h2),
    List.getD_eq_getElem _ _ h1, List.getD_eq_getElem _ _ h2, List.getElem_zipWith]

lemma getD_zip {l1 l2 : List ℚ} {i : ℕ} (h1 : i < l1.length) (h2 : i < l2.length) :
    (l1.zip l2).getD i (0, 0) = (l1.getD i 0, l2.getD i 0) := by
  rw [List.getD_eq_getElem _ _ (by rw [List.length_zip]; exact lt_min h1 h2),
    List.getD_eq_getElem _ _ h1, List.getD_eq_getElem _ _ h2, List.getElem_zip]

lemma wvh_getD_mid (wv : List ℚ) (i : ℕ) (h : i + 1 < wv.length) :
    (wvh wv).getD i 0 = (wv.getD i 0 + wv.getD (i + 1) 0) / 2 := by
  have hz : i < (List.zipWith (fun x y => (x + y) / 2) wv (wv.rotate 1)).length := by
    rw [List.length_zipWith, List.length_rotate]; exact lt_min (by omega) (by omega)
  rw [List.getD_eq_getElem _ _ (by rw [length_wvh]; omega),
    List.getD_eq_getElem _ _ (by omega : i < wv.length),
    List.getD_eq_getElem _ _ h]
  unfold wvh
  rw [List.getElem_set_ne (show wv.length - 1 ≠ i by omega),
    List.getElem_zipWith, List.getElem_rotate]
  have hm : (i + 1) % wv.length = i + 1 := Nat.mod_eq_of_lt h
  simp only [hm]

lemma wvh_getD_last (wv : List ℚ) (h : 1 ≤ wv.length) :
    (wvh wv).getD (wv.length - 1) 0 =
      wv.getD (wv.length - 1) 0 + (wv.getD (wv.length - 1) 0 - wv.getD (wv.length - 2) 0) / 2 := by
  rw [List.getD_eq_getElem _ _ (by rw [length_wvh]; omega)]
  unfold wvh
  rw [List.getElem_set_self]

lemma dwv_getD_zero (wv : List ℚ) (h : 1 ≤ wv.length) :
    (dwv wv).getD 0 0 = 2 * ((wvh wv).getD 0 0 - wv.getD 0 0) := by
  rw [List.getD_eq_getElem _ _ (by rw [length_dwv]; omega)]
  unfold dwv
  rw [List.getElem_set_self]

lemma dwv_getD_succ (wv : List ℚ) (i : ℕ) (h1 : 1 ≤ i) (h2 : i < wv.length) :
    (dwv wv).getD i 0 = (wvh wv).getD i 0 - (wvh wv).getD (i - 1) 0 := by
  have hw : (wvh wv).length = wv.length := length_wvh wv
  have hz : i < (List.zipWith (fun x y => x - y) (wvh wv)
      ((wvh wv).rotate ((wvh wv).length - 1))).length := by
    rw [List.length_zipWith, List.length_rotate]; exact lt_min (by omega) (by omega)
  rw [List.getD_eq_getElem _ _ (by rw [length_dwv]; omega),
    List.getD_eq_getElem _ _ (by omega : i < (wvh wv).length),
    List.getD_eq_getElem _ _ (by omega : i - 1 < (wvh wv).length)]
  unfold dwv
  rw [List.getElem_set_ne (show 0 ≠ i by omega),
    List.getElem_zipWith, List.getElem_rotate]
  have hmod : (i + ((wvh wv).length - 1)) % (wvh wv).length = i - 1 := by
    have he : i + ((wvh wv).length - 1) = (i - 1) + 1 * (wvh wv).length := by omega
    rw [he, Nat.add_mul_mod_self_right, Nat.mod_eq_of_lt (by omega)]
  simp only [hmod]

lemma cumAux_getD (acc : ℚ) (l : List ℚ) (i : ℕ) (h : i < l.length) :
    (cumAux acc l).getD i 0 = acc + (l.take (i + 1)).sum := by
  induction l generalizing acc i with
  | nil => simp at h
  | cons x xs ih =>
    cases i with
    | zero => simp [cumAux]
    | succ j =>
      have hj : j < xs.length := by simpa using h
      simp only [cumAux, List.getD_cons_succ, ih (acc + x) j hj, List.take_succ_cons,
        List.sum_cons]
      ring

lemma cumsum_getD (l : List ℚ) (i : ℕ) (h : i < l.length) :
    (cumsum l).getD i 0 = (l.take (i + 1)).sum := by
  rw [cumsum, cumAux_getD 0 l i h, zero_add]

lemma cumsum_getD_zero (l : List ℚ) (h : 0 < l.length) :
    (cumsum l).getD 0 0 = l.getD 0 0 := by
  rw [cumsum_getD l 0 h, List.getD_eq_getElem _ _ h]
  cases l with
  | nil => simp at h
  | cons x xs => simp

lemma cumsum_sub (l : List ℚ) (i : ℕ) (h : i + 1 < l.length) :
    (cumsum l).getD (i + 1) 0 - (cumsum l).getD i 0 = l.getD (i + 1) 0 := by
  rw [cumsum_getD l (i + 1) h, cumsum_getD l i (by omega),
    List.sum_take_succ l (i + 1) h, List.getD_eq_getElem _ _ h]
  ring

lemma prodB_eq_zipWith (fx d : List ℚ) (hf : fx.length = d.length) (h2 : 2 ≤ d.length) :
    prodB fx d = List.zipWith (fun x y => x * y) fx d := by
  unfold prodB
  rw [if_neg (by omega), if_neg (by omega)]

lemma bwv_getD_zero (nwv : List ℚ) :
    (bwv nwv).getD 0 0 = nwv.getD 0 0 - (nwv.getD 1 0 - nwv.getD 0 0) / 2 := rfl

lemma bwv_getD_succ (nwv : List ℚ) (k : ℕ) :
    (bwv nwv).getD (k + 1) 0 = (wvh nwv).getD k 0 := rfl

/-! ### Monotonicity of the derived edge arrays -/

lemma chain'_getD_lt (l : List ℚ) (hc : List.Chain' (· < ·) l) {i j : ℕ}
    (hij : i < j) (hj : j < l.length) : l.getD i 0 < l.getD j 0 := by
  have hp : List.Pairwise (· < ·) l := List.chain'_iff_pairwise.mp hc
  rw [List.pairwise_iff_getElem] at hp
  rw [List.getD_eq_getElem _ _ (by omega), List.getD_eq_getElem _ _ hj]
  exact hp i j (by omega) hj hij

lemma chain'_getD_le (l : List ℚ) (hc : List.Chain' (· < ·) l) {i j : ℕ}
    (hij : i ≤ j) (hj : j < l.length) : l.getD i 0 ≤ l.getD j 0 := by
  rcases Nat.eq_or_lt_of_le hij with he | hlt
  · rw [he]
  · exact le_of_lt (chain'_getD_lt l hc hlt hj)

lemma chain'_wvh (wv : List ℚ) (hc : List.Chain' (· < ·) wv) (h2 : 2 ≤ wv.length) :
    List.Chain' (· < ·) (wvh wv) := by
  rw [List.chain'_iff_get]
  intro i hi
  rw [length_wvh] at hi
  have hadj : ∀ k, k + 1 < wv.length → wv.getD k 0 < wv.getD (k + 1) 0 := fun k hk =>
    chain'_getD_lt wv hc (by omega) hk
  have hget : ∀ (k : ℕ) (hk : k < (wvh wv).length),
      (wvh wv).get ⟨k, hk⟩ = (wvh wv).getD k 0 := fun k hk => by
    rw [List.get_eq_getElem, List.getD_eq_getElem _ _ hk]
  rw [hget, hget]
  by_cases hcase : i + 2 < wv.length
  · rw [wvh_getD_mid wv i (by omega), wvh_getD_mid wv (i + 1) (by omega)]
    have ha1 := hadj i (by omega)
    have ha2 := hadj (i + 1) (by omega)
    linarith
  · have hieq : i = wv.length - 2 := by omega
    have hieq1 : i + 1 = wv.length - 1 := by omega
    rw [wvh_getD_mid wv i (by omega), hieq1, wvh_getD_last wv (by omega), hieq]
    have hstep : wv.length - 2 + 1 = wv.length - 1 := by omega
    have ha1 := hadj (wv.length - 2) (by omega)
    rw [hstep] at ha1
    linarith

lemma dwv_pos (wv : List ℚ) (hc : List.Chain' (· < ·) wv) (h2 : 2 ≤ wv.length)
    (i : ℕ) (hi : i < wv.length) : 0 < (dwv wv).getD i 0 := by
  cases i with
  | zero =>
    rw [dwv_getD_zero wv (by omega), wvh_getD_mid wv 0 (by omega)]
    have := chain'_getD_lt wv hc (show 0 < 1 by omega) (by omega)
    linarith
  | succ j =>
    rw [dwv_getD_succ wv (j + 1) (by omega) hi]
    have := chain'_getD_lt (wvh wv) (chain'_wvh wv hc h2) (show j + 1 - 1 < j + 1 by omega)
      (by rw [length_wvh]; omega)
    linarith

/-! ### Properties of the piecewise-linear interpolant -/

lemma interpL_lt_head (p : ℚ × ℚ) (rest : List (ℚ × ℚ)) (x : ℚ) (h : x < p.1) :
    interpL (p :: rest) x = 0 := by
  cases rest with
  | nil => simp only [interpL, if_neg (ne_of_lt h)]
  | cons q r => simp only [interpL, if_pos h]

lemma interpL_head (p : ℚ × ℚ) (rest : List (ℚ × ℚ))
    (hc : List.Chain' (fun s t : ℚ × ℚ => s.1 < t.1) (p :: rest)) :
    interpL (p :: rest) p.1 = p.2 := by
  cases rest with
  | nil => simp [interpL]
  | cons q r =>
    have hpq : p.1 < q.1 := (List.chain'_cons.mp hc).1
    simp only [interpL, if_neg (lt_irrefl p.1), if_pos (le_of_lt hpq), sub_self,
      mul_zero, zero_div, add_zero]

lemma interpL_gt_all : ∀ (pts : List (ℚ × ℚ)) (x : ℚ), (∀ r ∈ pts, r.1 < x) →
    interpL pts x = 0 := by
  intro pts
  induction pts with
  | nil => intro x _; rfl
  | cons p tail ih =>
    intro x hall
    cases tail with
    | nil =>
      have : x ≠ p.1 := ne_of_gt (hall p (by simp))
      simp only [interpL, if_neg this]
    | cons q rest =>
      have hp : p.1 < x := hall p (by simp)
      have hq : q.1 < x := hall q (by simp)
      simp only [interpL, if_neg (not_lt.mpr (le_of_lt hp)), if_neg (not_le.mpr hq)]
      exact ih x (fun r hr => hall r (by simp [hr]))

lemma chain'_fst_getD_lt (pts : List (ℚ × ℚ))
    (hc : List.Chain' (fun s t : ℚ × ℚ => s.1 < t.1) pts) {i j : ℕ}
    (hij : i < j) (hj : j < pts.length) :
    (pts.getD i (0, 0)).1 < (pts.getD j (0, 0)).1 := by
  haveI : IsTrans (ℚ × ℚ) (fun s t : ℚ × ℚ => s.1 < t.1) :=
    ⟨fun _ _ _ h1 h2 => lt_trans h1 h2⟩
  have hp := List.chain'_iff_pairwise.mp hc
  rw [List.pairwise_iff_getElem] at hp
  rw [List.getD_eq_getElem _ _ (by omega), List.getD_eq_getElem _ _ hj]
  exact hp i j (by omega) hj hij

lemma interpL_knot : ∀ (pts : List (ℚ × ℚ)),
    List.Chain' (fun s t : ℚ × ℚ => s.1 < t.1) pts →
    ∀ j, j < pts.length → interpL pts (pts.getD j (0, 0)).1 = (pts.getD j (0, 0)).2 := by
  intro pts
  induction pts with
  | nil => intro _ j hj; simp at hj
  | cons p tail ih =>
    intro hc j hj
    cases j with
    | zero =>
      simpa only [List.getD_cons_zero] using interpL_head p tail hc
    | succ k =>
      have hk : k < tail.length := by simpa using hj
      cases tail with
      | nil => simp at hk
      | cons q rest =>
        have hpq : p.1 < q.1 := (List.chain'_cons.mp hc).1
        have hct : List.Chain' (fun s t : ℚ × ℚ => s.1 < t.1) (q :: rest) :=
          (List.chain'_cons.mp hc).2
        rw [List.getD_cons_succ]
        by_cases hk0 : k = 0
        · subst hk0
          simp only [List.getD_cons_zero]
          have hne : q.1 - p.1 ≠ 0 := sub_ne_zero_of_ne (ne_of_gt hpq)
          simp only [interpL, if_neg (not_lt.mpr (le_of_lt hpq)), if_pos (le_refl q.1)]
          rw [mul_div_assoc, div_self hne, mul_one]
          ring
        · have hgt : q.1 < ((q :: rest).getD k (0, 0)).1 := by
            have h0 : ((q :: rest).getD 0 (0, 0)).1 < ((q :: rest).getD k (0, 0)).1 :=
              chain'_fst_getD_lt (q :: rest) hct (by omega) hk
            simpa using h0
          have hpx : p.1 < ((q :: rest).getD k (0, 0)).1 := lt_trans hpq hgt
          simp only [interpL, if_neg (not_lt.mpr (le_of_lt hpx)), if_neg (not_le.mpr hgt)]
          exact ih hct k hk

/-! ### Properties of the step integral -/

lemma overlapLen_vanish {lo hi a b : ℚ} (h : b ≤ lo) : overlapLen lo hi a b = 0 := by
  unfold overlapLen
  have h1 : min b hi ≤ b := min_le_left b hi
  have h2 : lo ≤ max a lo := le_max_right a lo
  exact max_eq_left (by linarith)

lemma overlapLen_vanish_above {lo hi a b : ℚ} (h : hi ≤ a) : overlapLen lo hi a b = 0 := by
  unfold overlapLen
  have h1 : min b hi ≤ hi := min_le_right b hi
  have h2 : a ≤ max a lo := le_max_left a lo
  exact max_eq_left (by linarith)

lemma overlapLen_add {lo hi x a b : ℚ} (hlh : lo ≤ hi) (hxa : x ≤ a) (hab : a ≤ b) :
    overlapLen lo hi x b = overlapLen lo hi x a + overlapLen lo hi a b := by
  simp only [overlapLen, max_def, min_def]
  split_ifs <;> linarith

lemma stepIntegral_zero_right : ∀ (p : ℚ × ℚ) (rest : List (ℚ × ℚ)),
    List.Chain' (fun s t : ℚ × ℚ => s.1 < t.1) (p :: rest) →
    ∀ a b : ℚ, b ≤ p.1 → stepIntegral (p :: rest) a b = 0 := by
  intro p rest
  induction rest generalizing p with
  | nil => intro _ a b _; rfl
  | cons q rest' ih =>
    intro hc a b hb
    have hpq : p.1 < q.1 := (List.chain'_cons.mp hc).1
    show (q.2 - p.2) / (q.1 - p.1) * overlapLen p.1 q.1 a b + stepIntegral (q :: rest') a b = 0
    rw [overlapLen_vanish hb, mul_zero, zero_add]
    exact ih q (List.chain'_cons.mp hc).2 a b (by linarith)

lemma stepIntegral_congr_lower : ∀ (p : ℚ × ℚ) (rest : List (ℚ × ℚ)),
    List.Chain' (fun s t : ℚ × ℚ => s.1 < t.1) (p :: rest) →
    ∀ a a' b : ℚ, a ≤ p.1 → a' ≤ p.1 →
    stepIntegral (p :: rest) a b = stepIntegral (p :: rest) a' b := by
  intro p rest
  induction rest generalizing p with
  | nil => intro _ a a' b _ _; rfl
  | cons q rest' ih =>
    intro hc a a' b ha ha'
    have hpq : p.1 < q.1 := (List.chain'_cons.mp hc).1
    show (q.2 - p.2) / (q.1 - p.1) * overlapLen p.1 q.1 a b + stepIntegral (q :: rest') a b
      = (q.2 - p.2) / (q.1 - p.1) * overlapLen p.1 q.1 a' b + stepIntegral (q :: rest') a' b
    have hov : overlapLen p.1 q.1 a b = overlapLen p.1 q.1 a' b := by
      unfold overlapLen
      rw [max_eq_right ha, max_eq_right ha']
    rw [hov, ih q (List.chain'_cons.mp hc).2 a a' b (by linarith) (by linarith)]

lemma stepIntegral_split : ∀ (pts : List (ℚ × ℚ)),
    List.Chain' (fun s t : ℚ × ℚ => s.1 < t.1) pts →
    ∀ x a b : ℚ, x ≤ a → a ≤ b →
    stepIntegral pts x b = stepIntegral pts x a + stepIntegral pts a b := by
  intro pts
  induction pts with
  | nil => intro _ x a b _ _; simp [stepIntegral]
  | cons p tail ih =>
    intro hc x a b hxa hab
    cases tail with
    | nil => simp [stepIntegral]
    | cons q rest =>
      have hpq : p.1 < q.1 := (List.chain'_cons.mp hc).1
      show (q.2 - p.2) / (q.1 - p.1) * overlapLen p.1 q.1 x b + stepIntegral (q :: rest) x b = _
      rw [overlapLen_add (le_of_lt hpq) hxa hab,
        ih (List.chain'_cons.mp hc).2 x a b hxa hab]
      show _ = (q.2 - p.2) / (q.1 - p.1) * overlapLen p.1 q.1 x a + stepIntegral (q :: rest) x a
        + ((q.2 - p.2) / (q.1 - p.1) * overlapLen p.1 q.1 a b + stepIntegral (q :: rest) a b)
      ring

lemma interpL_eq_add : ∀ (rest : List (ℚ × ℚ)) (p : ℚ × ℚ),
    List.Chain' (fun s t : ℚ × ℚ => s.1 < t.1) (p :: rest) →
    ∀ x : ℚ, p.1 ≤ x → x ≤ ((p :: rest).getD ((p :: rest).length - 1) (0, 0)).1 →
    interpL (p :: rest) x = p.2 + stepIntegral (p :: rest) p.1 x := by
  intro rest
  induction rest with
  | nil =>
    intro p _ x hpx hxl
    simp only [List.length_cons, List.length_nil, Nat.sub_self, List.getD_cons_zero] at hxl
    have hx : x = p.1 := le_antisymm hxl hpx
    subst hx
    simp [interpL, stepIntegral]
  | cons q rest' ih =>
    intro p hc x hpx hxl
    have hpq : p.1 < q.1 := (List.chain'_cons.mp hc).1
    have hct := (List.chain'_cons.mp hc).2
    have hne : q.1 - p.1 ≠ 0 := sub_ne_zero_of_ne (ne_of_gt hpq)
    have hlast : ((p :: q :: rest').getD ((p :: q :: rest').length - 1) (0, 0)).1
        = ((q :: rest').getD ((q :: rest').length - 1) (0, 0)).1 := by
      have hlen : (p :: q :: rest').length - 1 = ((q :: rest').length - 1) + 1 := by
        simp [List.length_cons]
      rw [hlen, List.getD_cons_succ]
    rcases le_or_lt x q.1 with hxq | hxq
    · have hi : interpL (p :: q :: rest') x
          = p.2 + (q.2 - p.2) * (x - p.1) / (q.1 - p.1) := by
        simp only [interpL, if_neg (not_lt.mpr hpx), if_pos hxq]
      rw [hi]
      have hs : stepIntegral (p :: q :: rest') p.1 x
          = (q.2 - p.2) / (q.1 - p.1) * overlapLen p.1 q.1 p.1 x
            + stepIntegral (q :: rest') p.1 x := rfl
      rw [hs, stepIntegral_zero_right q rest' hct p.1 x hxq]
      have hov : overlapLen p.1 q.1 p.1 x = x - p.1 := by
        unfold overlapLen
        rw [min_eq_left hxq, max_self, max_eq_right (by linarith)]
      rw [hov]
      ring
    · have hi : interpL (p :: q :: rest') x = interpL (q :: rest') x := by
        simp only [interpL, if_neg (not_lt.mpr hpx), if_neg (not_le.mpr hxq)]
      rw [hi, ih q hct x (le_of_lt hxq) (hlast ▸ hxl)]
      have hs : stepIntegral (p :: q :: rest') p.1 x
          = (q.2 - p.2) / (q.1 - p.1) * overlapLen p.1 q.1 p.1 x
            + stepIntegral (q :: rest') p.1 x := rfl
      rw [hs]
      have hov : overlapLen p.1 q.1 p.1 x = q.1 - p.1 := by
        unfold overlapLen
        rw [min_eq_right (le_of_lt hxq), max_self, max_eq_right (by linarith)]
      rw [hov, div_mul_cancel₀ _ hne,
        stepIntegral_congr_lower q rest' hct p.1 q.1 x (le_of_lt hpq) (le_refl q.1)]
      ring

lemma interpL_sub (p : ℚ × ℚ) (rest : List (ℚ × ℚ))
    (hc : List.Chain' (fun s t : ℚ × ℚ => s.1 < t.1) (p :: rest))
    (a b : ℚ) (ha : p.1 ≤ a) (hab : a ≤ b)
    (hb : b ≤ ((p :: rest).getD ((p :: rest).length - 1) (0, 0)).1) :
    interpL (p :: rest) b - interpL (p :: rest) a = stepIntegral (p :: rest) a b := by
  rw [interpL_eq_add rest p hc b (le_trans ha hab) hb,
    interpL_eq_add rest p hc a ha (le_trans hab hb),
    stepIntegral_split (p :: rest) hc p.1 a b ha hab]
  ring

lemma stepIntegral_eq_sum : ∀ (pts : List (ℚ × ℚ)) (a b : ℚ),
    stepIntegral pts a b = ∑ j ∈ Finset.range (pts.length - 1),
      ((pts.getD (j + 1) (0, 0)).2 - (pts.getD j (0, 0)).2)
        / ((pts.getD (j + 1) (0, 0)).1 - (pts.getD j (0, 0)).1)
        * overlapLen (pts.getD j (0, 0)).1 (pts.getD (j + 1) (0, 0)).1 a b := by
  intro pts
  induction pts with
  | nil => intro a b; simp [stepIntegral]
  | cons p tail ih =>
    intro a b
    cases tail with
    | nil => simp [stepIntegral]
    | cons q rest =>
      have hlen : (p :: q :: rest).length - 1 = ((q :: rest).length - 1) + 1 := by
        simp [List.length_cons]
      rw [hlen, Finset.sum_range_succ']
      have hs : stepIntegral (p :: q :: rest) a b
          = (q.2 - p.2) / (q.1 - p.1) * overlapLen p.1 q.1 a b
            + stepIntegral (q :: rest) a b := rfl
      rw [hs, ih a b]
      simp only [List.getD_cons_succ, List.getD_cons_zero]
      ring

lemma zipWith_sum_eq (f : ℚ → ℚ × ℚ → ℚ) : ∀ (l1 : List ℚ) (l2 : List (ℚ × ℚ)),
    (List.zipWith f l1 l2).sum
      = ∑ j ∈ Finset.range (min l1.length l2.length), f (l1.getD j 0) (l2.getD j (0, 0)) := by
  intro l1
  induction l1 with
  | nil => intro l2; simp
  | cons x xs ih =>
    intro l2
    cases l2 with
    | nil => simp
    | cons y ys =>
      have hlen : min (x :: xs).length (y :: ys).length = min xs.length ys.length + 1 := by
        simp only [List.length_cons]
        omega
      rw [hlen, Finset.sum_range_succ']
      simp only [List.getD_cons_succ, List.getD_cons_zero, List.zipWith_cons_cons,
        List.sum_cons, ih ys]
      ring

/-! ### The cumulative curve measures overlap-weighted source flux -/

lemma getD_zipWith_pair (f : ℚ → ℚ → ℚ × ℚ) {l1 l2 : List ℚ} {i : ℕ}
    (h1 : i < l1.length) (h2 : i < l2.length) :
    (List.zipWith f l1 l2).getD i (0, 0) = f (l1.getD i 0) (l2.getD i 0) := by
  rw [List.getD_eq_getElem _ _ (by rw [List.length_zipWith]; exact lt_min h1 h2),
    List.getD_eq_getElem _ _ h1, List.getD_eq_getElem _ _ h2, List.getElem_zipWith]

lemma length_cprod (wv fx : List ℚ) (hf : fx.length = wv.length) (h2 : 2 ≤ wv.length) :
    (cumsum (prodB fx (dwv wv))).length = wv.length := by
  rw [length_cumsum,
    prodB_eq_zipWith _ _ (by rw [length_dwv]; exact hf) (by rw [length_dwv]; exact h2),
    List.length_zipWith, length_dwv]
  omega

lemma srcPts_length (wv fx : List ℚ) (hf : fx.length = wv.length) (h2 : 2 ≤ wv.length) :
    (srcPts wv fx).length = wv.length := by
  unfold srcPts
  rw [List.length_zip, length_wvh, length_cprod wv fx hf h2]
  omega

lemma srcPts_getD (wv fx : List ℚ) (hf : fx.length = wv.length) (h2 : 2 ≤ wv.length)
    (j : ℕ) (hj : j < wv.length) :
    (srcPts wv fx).getD j (0, 0)
      = ((wvh wv).getD j 0, (cumsum (prodB fx (dwv wv))).getD j 0) := by
  unfold srcPts
  exact getD_zip (by rw [length_wvh]; exact hj) (by rw [length_cprod wv fx hf h2]; exact hj)

lemma chain'_srcPts (wv fx : List ℚ) (hc : List.Chain' (· < ·) wv)
    (h2 : 2 ≤ wv.length) (hf : fx.length = wv.length) :
    List.Chain' (fun s t : ℚ × ℚ => s.1 < t.1) (srcPts wv fx) := by
  rw [List.chain'_iff_get]
  intro i hi
  have hL := srcPts_length wv fx hf h2
  rw [hL] at hi
  have hget : ∀ (k : ℕ) (hk : k < (srcPts wv fx).length),
      (srcPts wv fx).get ⟨k, hk⟩ = (srcPts wv fx).getD k (0, 0) := fun k hk => by
    rw [List.get_eq_getElem, List.getD_eq_getElem _ _ hk]
  rw [hget, hget, srcPts_getD wv fx hf h2 i (by omega),
    srcPts_getD wv fx hf h2 (i + 1) (by omega)]
  exact chain'_getD_lt (wvh wv) (chain'_wvh wv hc h2) (by omega) (by rw [length_wvh]; omega)

lemma cprod_sub (wv fx : List ℚ) (hf : fx.length = wv.length) (h2 : 2 ≤ wv.length)
    (j : ℕ) (hj : j + 1 < wv.length) :
    (cumsum (prodB fx (dwv wv))).getD (j + 1) 0 - (cumsum (prodB fx (dwv wv))).getD j 0
      = fx.getD (j + 1) 0 * ((wvh wv).getD (j + 1) 0 - (wvh wv).getD j 0) := by
  have hpl : (prodB fx (dwv wv)).length = wv.length := by
    rw [prodB_eq_zipWith _ _ (by rw [length_dwv]; exact hf) (by rw [length_dwv]; exact h2),
      List.length_zipWith, length_dwv]
    omega
  rw [cumsum_sub _ j (by rw [hpl]; exact hj),
    prodB_eq_zipWith _ _ (by rw [length_dwv]; exact hf) (by rw [length_dwv]; exact h2),
    getD_zipWith _ (by omega) (by rw [length_dwv]; exact hj),
    dwv_getD_succ wv (j + 1) (by omega) hj]
  norm_num

lemma fcum_sub_eq (wv fx : List ℚ) (hc : List.Chain' (· < ·) wv) (h2 : 2 ≤ wv.length)
    (hf : fx.length = wv.length) (a b : ℚ)
    (ha : (wvh wv).getD 0 0 ≤ a) (hab : a ≤ b)
    (hb : b ≤ (wvh wv).getD (wv.length - 1) 0) :
    fcum wv fx b - fcum wv fx a = srcOverlapSum wv fx a b := by
  have hL := srcPts_length wv fx hf h2
  obtain ⟨P, rest, hPr⟩ := List.exists_cons_of_ne_nil
    (show srcPts wv fx ≠ [] by intro h0; rw [h0] at hL; simp at hL; omega)
  have hchain := chain'_srcPts wv fx hc h2 hf
  have hP1 : P.1 = (wvh wv).getD 0 0 := by
    have := srcPts_getD wv fx hf h2 0 (by omega)
    rw [hPr, List.getD_cons_zero] at this
    rw [this]
  have hlastx : ((P :: rest).getD ((P :: rest).length - 1) (0, 0)).1
      = (wvh wv).getD (wv.length - 1) 0 := by
    have hgv := srcPts_getD wv fx hf h2 (wv.length - 1) (by omega)
    have hL2 := hL
    rw [hPr] at hgv hL2
    rw [hL2, hgv]
  have hsub : fcum wv fx b - fcum wv fx a = stepIntegral (srcPts wv fx) a b := by
    unfold fcum
    rw [hPr]
    exact interpL_sub P rest (hPr ▸ hchain) a b (hP1 ▸ ha) hab (by rw [hlastx]; exact hb)
  rw [hsub, stepIntegral_eq_sum, hL]
  have hbl : (binsOf wv).length = wv.length := by
    unfold binsOf
    rw [List.length_zipWith, length_wvh, length_dwv]
    omega
  have hsrc : srcOverlapSum wv fx a b
      = ∑ j ∈ Finset.range wv.length,
          fx.getD j 0 * overlapLen ((binsOf wv).getD j (0, 0)).1
            ((binsOf wv).getD j (0, 0)).2 a b := by
    unfold srcOverlapSum
    rw [zipWith_sum_eq]
    rw [hbl, hf, min_self]
  rw [hsrc]
  have hpeel : ∑ j ∈ Finset.range wv.length,
      fx.getD j 0 * overlapLen ((binsOf wv).getD j (0, 0)).1
        ((binsOf wv).getD j (0, 0)).2 a b
      = (∑ j ∈ Finset.range (wv.length - 1),
          fx.getD (j + 1) 0 * overlapLen ((binsOf wv).getD (j + 1) (0, 0)).1
            ((binsOf wv).getD (j + 1) (0, 0)).2 a b)
        + fx.getD 0 0 * overlapLen ((binsOf wv).getD 0 (0, 0)).1
            ((binsOf wv).getD 0 (0, 0)).2 a b := by
    rw [show wv.length = (wv.length - 1) + 1 from by omega, Finset.sum_range_succ']
    simp only [Nat.add_sub_cancel]
  rw [hpeel]
  have hbin0 : ((binsOf wv).getD 0 (0, 0)).2 = (wvh wv).getD 0 0 := by
    unfold binsOf
    rw [getD_zipWith_pair _ (by rw [length_wvh]; omega) (by rw [length_dwv]; omega)]
  have hzero : fx.getD 0 0 * overlapLen ((binsOf wv).getD 0 (0, 0)).1
      ((binsOf wv).getD 0 (0, 0)).2 a b = 0 := by
    rw [overlapLen_vanish_above (by rw [hbin0]; exact ha), mul_zero]
  rw [hzero, add_zero]
  refine Finset.sum_congr rfl (fun j hj => ?_)
  have hjlt : j < wv.length - 1 := Finset.mem_range.mp hj
  have hbj : (binsOf wv).getD (j + 1) (0, 0)
      = ((wvh wv).getD (j + 1) 0 - (dwv wv).getD (j + 1) 0, (wvh wv).getD (j + 1) 0) := by
    unfold binsOf
    rw [getD_zipWith_pair _ (by rw [length_wvh]; omega) (by rw [length_dwv]; omega)]
  have hdj : (dwv wv).getD (j + 1) 0 = (wvh wv).getD (j + 1) 0 - (wvh wv).getD j 0 := by
    rw [dwv_getD_succ wv (j + 1) (by omega) (by omega)]
    norm_num
  have hPj : (srcPts wv fx).getD j (0, 0)
      = ((wvh wv).getD j 0, (cumsum (prodB fx (dwv wv))).getD j 0) :=
    srcPts_getD wv fx hf h2 j (by omega)
  have hPj1 : (srcPts wv fx).getD (j + 1) (0, 0)
      = ((wvh wv).getD (j + 1) 0, (cumsum (prodB fx (dwv wv))).getD (j + 1) 0) :=
    srcPts_getD wv fx hf h2 (j + 1) (by omega)
  rw [hPj, hPj1, hbj, hdj]
  have hcs := cprod_sub wv fx hf h2 j (by omega)
  have hne : (wvh wv).getD (j + 1) 0 - (wvh wv).getD j 0 ≠ 0 := by
    have := chain'_getD_lt (wvh wv) (chain'_wvh wv hc h2) (show j < j + 1 by omega)
      (by rw [length_wvh]; omega)
    intro h0
    rw [sub_eq_zero] at h0
    exact absurd h0.symm (ne_of_lt this)
  simp only
  rw [hcs, mul_div_assoc, div_self hne, mul_one]
  congr 1
  ring_nf

/-! ### Index bookkeeping for the rebinned output -/

lemma length_newcum (wv fx nwv : List ℚ) : (newcum wv fx nwv).length = nwv.length + 1 := by
  unfold newcum
  split
  · rw [List.length_set, List.length_map, length_bwv]
  · rw [List.length_map, length_bwv]

lemma newcum_getD_lt (wv fx nwv : List ℚ) (k : ℕ) (hk : k < nwv.length) :
    (newcum wv fx nwv).getD k 0 = fcum wv fx ((bwv nwv).getD k 0) := by
  have hbl : (bwv nwv).length = nwv.length + 1 := length_bwv nwv
  have hml : ((bwv nwv).map (fcum wv fx)).length = nwv.length + 1 := by
    rw [List.length_map, hbl]
  unfold newcum
  split
  · rw [List.getD_eq_getElem _ _ (by rw [List.length_set, hml]; omega),
      List.getElem_set_ne (by rw [hml]; omega), List.getElem_map,
      ← List.getD_eq_getElem (bwv nwv) 0 (by rw [hbl]; omega)]
  · rw [List.getD_eq_getElem _ _ (by rw [hml]; omega), List.getElem_map,
      ← List.getD_eq_getElem (bwv nwv) 0 (by rw [hbl]; omega)]

lemma rebinCore_length (wv fx nwv : List ℚ) : (rebinCore wv fx nwv).length = nwv.length := by
  unfold rebinCore
  rw [List.length_zipWith, List.length_zipWith, List.length_zipWith, List.length_tail,
    List.length_tail, length_newcum, length_bwv]
  omega

lemma rebinCore_getD (wv fx nwv : List ℚ) (k : ℕ) (hk : k < nwv.length) :
    (rebinCore wv fx nwv).getD k 0
      = ((newcum wv fx nwv).getD (k + 1) 0 - (newcum wv fx nwv).getD k 0)
        / ((bwv nwv).getD (k + 1) 0 - (bwv nwv).getD k 0) := by
  have hnl := length_newcum wv fx nwv
  have hbl := length_bwv nwv
  have hk1 : k < (newcum wv fx nwv).tail.length := by rw [List.length_tail, hnl]; omega
  have hk2 : k < (newcum wv fx nwv).length := by omega
  have hk3 : k < (bwv nwv).tail.length := by rw [List.length_tail, hbl]; omega
  have hk4 : k < (bwv nwv).length := by omega
  unfold rebinCore
  rw [List.getD_eq_getElem _ _ (by
    rw [List.length_zipWith, List.length_zipWith, List.length_zipWith, List.length_tail,
      List.length_tail, hnl, hbl]
    omega)]
  rw [List.getElem_zipWith, List.getElem_zipWith, List.getElem_zipWith,
    List.getElem_tail, List.getElem_tail]
  rw [← List.getD_eq_getElem (newcum wv fx nwv) 0 (show k + 1 < _ by omega),
    ← List.getD_eq_getElem (newcum wv fx nwv) 0 hk2,
    ← List.getD_eq_getElem (bwv nwv) 0 (show k + 1 < _ by rw [hbl]; omega),
    ← List.getD_eq_getElem (bwv nwv) 0 hk4]

lemma rebin_ok (wv fx nwv : List ℚ) (h2 : 2 ≤ wv.length) (hf : fx.length = wv.length)
    (hm : 2 ≤ nwv.length) : rebin wv fx nwv = Except.ok (rebinCore wv fx nwv) := by
  unfold rebin
  rw [if_neg (by omega), if_neg (show ¬¬(fx.length = wv.length ∨ fx.length = 1 ∨ wv.length = 1)
    from fun hno => hno (Or.inl hf)), if_neg (by omega), if_neg (by omega)]

/-! ### Flux conservation over the interior -/

lemma interior_term (wv fx nwv : List ℚ) (hct : List.Chain' (· < ·) nwv)
    (hm : 2 ≤ nwv.length) (k : ℕ) (hk1 : 1 ≤ k) (hk2 : k + 1 ≤ nwv.length - 1) :
    (rebinCore wv fx nwv).getD k 0 * ((bwv nwv).getD (k + 1) 0 - (bwv nwv).getD k 0)
      = fcum wv fx ((bwv nwv).getD (k + 1) 0) - fcum wv fx ((bwv nwv).getD k 0) := by
  obtain ⟨j, rfl⟩ : ∃ j, k = j + 1 := ⟨k - 1, by omega⟩
  rw [rebinCore_getD wv fx nwv (j + 1) (by omega),
    newcum_getD_lt wv fx nwv (j + 1 + 1) (by omega),
    newcum_getD_lt wv fx nwv (j + 1) (by omega)]
  have hwpos : 0 < (bwv nwv).getD (j + 1 + 1) 0 - (bwv nwv).getD (j + 1) 0 := by
    rw [bwv_getD_succ, bwv_getD_succ]
    have := chain'_getD_lt (wvh nwv) (chain'_wvh nwv hct hm) (show j < j + 1 by omega)
      (by rw [length_wvh]; omega)
    linarith
  rw [div_mul_cancel₀ _ (ne_of_gt hwpos)]

/-- C1 (amended): when every interior target edge lies inside the span of
the source bin edges (in particular the first interior target edge is at
least the first source bin edge), `rebin` succeeds and the total rebinned
flux times target bin width over the interior target bins (all but the
first and the last) is *exactly* the source flux times source bin width
over the same physical wavelength interval. -/
theorem rebin_conserves_interior_flux (wv fx nwv : List ℚ)
    (hc : List.Chain' (· < ·) wv) (h2 : 2 ≤ wv.length) (hf : fx.length = wv.length)
    (hct : List.Chain' (· < ·) nwv) (hm : 2 ≤ nwv.length)
    (hlo : (wvh wv).getD 0 0 ≤ (bwv nwv).getD 1 0)
    (hhi : (bwv nwv).getD (nwv.length - 1) 0 ≤ (wvh wv).getD (wv.length - 1) 0) :
    rebin wv fx nwv = Except.ok (rebinCore wv fx nwv) ∧
    ∑ k ∈ Finset.Ico 1 (nwv.length - 1),
        (rebinCore wv fx nwv).getD k 0 * ((bwv nwv).getD (k + 1) 0 - (bwv nwv).getD k 0)
      = srcOverlapSum wv fx ((bwv nwv).getD 1 0) ((bwv nwv).getD (nwv.length - 1) 0) := by
  refine ⟨rebin_ok wv fx nwv h2 hf hm, ?_⟩
  have hsum1 : ∑ k ∈ Finset.Ico 1 (nwv.length - 1),
      (rebinCore wv fx nwv).getD k 0 * ((bwv nwv).getD (k + 1) 0 - (bwv nwv).getD k 0)
      = ∑ k ∈ Finset.Ico 1 (nwv.length - 1),
        (fcum wv fx ((bwv nwv).getD (k + 1) 0) - fcum wv fx ((bwv nwv).getD k 0)) := by
    refine Finset.sum_congr rfl (fun k hk => ?_)
    have hmem := Finset.mem_Ico.mp hk
    exact interior_term wv fx nwv hct hm k (by omega) (by omega)
  rw [hsum1]
  have htel : ∑ k ∈ Finset.Ico 1 (nwv.length - 1),
      (fcum wv fx ((bwv nwv).getD (k + 1) 0) - fcum wv fx ((bwv nwv).getD k 0))
      = fcum wv fx ((bwv nwv).getD (nwv.length - 1) 0)
        - fcum wv fx ((bwv nwv).getD 1 0) := by
    rw [Finset.sum_Ico_eq_sum_range]
    have hcongr : ∀ i ∈ Finset.range (nwv.length - 1 - 1),
        fcum wv fx ((bwv nwv).getD (1 + i + 1) 0) - fcum wv fx ((bwv nwv).getD (1 + i) 0)
        = fcum wv fx ((bwv nwv).getD ((i + 1) + 1) 0)
          - fcum wv fx ((bwv nwv).getD (i + 1) 0) := by
      intro i _
      have e1 : 1 + i + 1 = (i + 1) + 1 := by omega
      have e2 : 1 + i = i + 1 := by omega
      rw [e1, e2]
    rw [Finset.sum_congr rfl hcongr,
      Finset.sum_range_sub (fun t => fcum wv fx ((bwv nwv).getD (t + 1) 0)) (nwv.length - 1 - 1)]
    have e3 : nwv.length - 1 - 1 + 1 = nwv.length - 1 := by omega
    rw [e3]
  rw [htel]
  have hab : (bwv nwv).getD 1 0 ≤ (bwv nwv).getD (nwv.length - 1) 0 := by
    obtain ⟨j, hj⟩ : ∃ j, nwv.length - 1 = j + 1 := ⟨nwv.length - 2, by omega⟩
    rw [hj, bwv_getD_succ, show (1 : ℕ) = 0 + 1 from rfl, bwv_getD_succ]
    exact chain'_getD_le (wvh nwv) (chain'_wvh nwv hct hm) (by omega)
      (by rw [length_wvh]; omega)
  exact fcum_sub_eq wv fx hc h2 hf _ _ hlo hab hhi

/-! ### The cumulative curve at and outside its knots -/

lemma fcum_lt_first (wv fx : List ℚ) (h2 : 2 ≤ wv.length) (hf : fx.length = wv.length)
    (x : ℚ) (hx : x < (wvh wv).getD 0 0) : fcum wv fx x = 0 := by
  have hL := srcPts_length wv fx hf h2
  obtain ⟨P, rest, hPr⟩ := List.exists_cons_of_ne_nil
    (show srcPts wv fx ≠ [] by intro h0; rw [h0] at hL; simp at hL; omega)
  have hP1 : P.1 = (wvh wv).getD 0 0 := by
    have hg := srcPts_getD wv fx hf h2 0 (by omega)
    rw [hPr, List.getD_cons_zero] at hg
    rw [hg]
  unfold fcum
  rw [hPr]
  exact interpL_lt_head P rest x (by rw [hP1]; exact hx)

lemma fcum_gt_last (wv fx : List ℚ) (hc : List.Chain' (· < ·) wv) (h2 : 2 ≤ wv.length)
    (hf : fx.length = wv.length) (x : ℚ)
    (hx : (wvh wv).getD (wv.length - 1) 0 < x) : fcum wv fx x = 0 := by
  have hL := srcPts_length wv fx hf h2
  unfold fcum
  apply interpL_gt_all
  intro r hr
  obtain ⟨j, hj, hrj⟩ := List.mem_iff_getElem.mp hr
  have hjn : j < wv.length := by rw [hL] at hj; exact hj
  have hrg : r = (srcPts wv fx).getD j (0, 0) := by
    rw [List.getD_eq_getElem _ _ hj, hrj]
  rw [hrg, srcPts_getD wv fx hf h2 j hjn]
  have hle : (wvh wv).getD j 0 ≤ (wvh wv).getD (wv.length - 1) 0 :=
    chain'_getD_le (wvh wv) (chain'_wvh wv hc h2) (by omega) (by rw [length_wvh]; omega)
  exact lt_of_le_of_lt hle hx

lemma fcum_knot (wv fx : List ℚ) (hc : List.Chain' (· < ·) wv) (h2 : 2 ≤ wv.length)
    (hf : fx.length = wv.length) (j : ℕ) (hj : j < wv.length) :
    fcum wv fx ((wvh wv).getD j 0) = (cumsum (prodB fx (dwv wv))).getD j 0 := by
  have hL := srcPts_length wv fx hf h2
  have hk := interpL_knot (srcPts wv fx) (chain'_srcPts wv fx hc h2 hf) j (by rw [hL]; exact hj)
  rw [srcPts_getD wv fx hf h2 j hj] at hk
  exact hk

lemma getD_map_fcum (wv fx b : List ℚ) (k : ℕ) (hk : k < b.length) :
    (b.map (fcum wv fx)).getD k 0 = fcum wv fx (b.getD k 0) := by
  rw [List.getD_eq_getElem _ _ (by rw [List.length_map]; exact hk), List.getElem_map,
    ← List.getD_eq_getElem b 0 hk]

lemma newcum_eq_map (wv fx nwv : List ℚ)
    (hnofix : ¬ (wvh wv).getD ((wvh wv).length - 1) 0
      < (bwv nwv).getD ((bwv nwv).length - 1) 0) :
    newcum wv fx nwv = (bwv nwv).map (fcum wv fx) := by
  unfold newcum
  rw [if_neg hnofix]

/-! ### Identity on the original grid -/

/-- C5: rebinning a spectrum with strictly increasing wavelengths (length at
least 2) onto exactly its own wavelength grid returns the original flux
values — in the rational model, exactly. -/
theorem rebin_identity_on_own_grid (wv fx : List ℚ)
    (hc : List.Chain' (· < ·) wv) (h2 : 2 ≤ wv.length) (hf : fx.length = wv.length) :
    rebin wv fx wv = Except.ok fx := by
  rw [rebin_ok wv fx wv h2 hf h2]
  congr 1
  have hbl : (bwv wv).length = wv.length + 1 := length_bwv wv
  have hnofix : ¬ (wvh wv).getD ((wvh wv).length - 1) 0
      < (bwv wv).getD ((bwv wv).length - 1) 0 := by
    rw [hbl, length_wvh]
    obtain ⟨j, hj⟩ : ∃ j, wv.length - 1 = j + 1 := ⟨wv.length - 2, by omega⟩
    have e1 : wv.length + 1 - 1 = (wv.length - 1) + 1 := by omega
    rw [e1, bwv_getD_succ]
    exact lt_irrefl _
  have hmap := newcum_eq_map wv fx wv hnofix
  have hwchain := chain'_wvh wv hc h2
  apply List.ext_getElem
  · rw [rebinCore_length]; omega
  · intro k hk1 hk2
    have hkn : k < wv.length := by rw [rebinCore_length] at hk1; exact hk1
    rw [← List.getD_eq_getElem (rebinCore wv fx wv) 0 hk1, ← List.getD_eq_getElem fx 0 hk2,
      rebinCore_getD wv fx wv k hkn, hmap,
      getD_map_fcum wv fx (bwv wv) (k + 1) (by omega),
      getD_map_fcum wv fx (bwv wv) k (by omega)]
    cases k with
    | zero =>
      have h01 : wv.getD 0 0 < wv.getD 1 0 :=
        chain'_getD_lt wv hc (by omega) (by omega)
      have hh0 : (wvh wv).getD 0 0 = (wv.getD 0 0 + wv.getD 1 0) / 2 :=
        wvh_getD_mid wv 0 (by omega)
      have hb0 : (bwv wv).getD 0 0 = wv.getD 0 0 - (wv.getD 1 0 - wv.getD 0 0) / 2 :=
        bwv_getD_zero wv
      have hb1 : (bwv wv).getD 1 0 = (wvh wv).getD 0 0 := bwv_getD_succ wv 0
      have hcl : fcum wv fx ((bwv wv).getD 0 0) = 0 := by
        apply fcum_lt_first wv fx h2 hf
        rw [hb0, hh0]
        linarith
      have hck : fcum wv fx ((bwv wv).getD 1 0) = (cumsum (prodB fx (dwv wv))).getD 0 0 := by
        rw [hb1]
        exact fcum_knot wv fx hc h2 hf 0 (by omega)
      have hc0 : (cumsum (prodB fx (dwv wv))).getD 0 0
          = fx.getD 0 0 * (dwv wv).getD 0 0 := by
        have hpl : (prodB fx (dwv wv)).length = wv.length := by
          rw [prodB_eq_zipWith _ _ (by rw [length_dwv]; exact hf) (by rw [length_dwv]; exact h2),
            List.length_zipWith, length_dwv]
          omega
        rw [cumsum_getD_zero _ (by rw [hpl]; omega),
          prodB_eq_zipWith _ _ (by rw [length_dwv]; exact hf) (by rw [length_dwv]; exact h2),
          getD_zipWith _ (by omega) (by rw [length_dwv]; omega)]
      have hd0 : (dwv wv).getD 0 0 = wv.getD 1 0 - wv.getD 0 0 := by
        rw [dwv_getD_zero wv (by omega), hh0]
        ring
      rw [hcl, hck, hc0, hb1, hb0, hh0, hd0]
      have hne : wv.getD 1 0 - wv.getD 0 0 ≠ 0 := by
        intro h0
        rw [sub_eq_zero] at h0
        exact absurd h0.symm (ne_of_lt h01)
      have e : (wv.getD 0 0 + wv.getD 1 0) / 2
          - (wv.getD 0 0 - (wv.getD 1 0 - wv.getD 0 0) / 2)
          = wv.getD 1 0 - wv.getD 0 0 := by ring
      rw [sub_zero, e, mul_div_assoc, div_self hne, mul_one]
    | succ j =>
      have hbk : (bwv wv).getD (j + 1) 0 = (wvh wv).getD j 0 := bwv_getD_succ wv j
      have hbk1 : (bwv wv).getD (j + 1 + 1) 0 = (wvh wv).getD (j + 1) 0 :=
        bwv_getD_succ wv (j + 1)
      have hck : fcum wv fx ((wvh wv).getD j 0) = (cumsum (prodB fx (dwv wv))).getD j 0 :=
        fcum_knot wv fx hc h2 hf j (by omega)
      have hck1 : fcum wv fx ((wvh wv).getD (j + 1) 0)
          = (cumsum (prodB fx (dwv wv))).getD (j + 1) 0 :=
        fcum_knot wv fx hc h2 hf (j + 1) hkn
      have hcs := cprod_sub wv fx hf h2 j hkn
      have hne : (wvh wv).getD (j + 1) 0 - (wvh wv).getD j 0 ≠ 0 := by
        have := chain'_getD_lt (wvh wv) hwchain (show j < j + 1 by omega)
          (by rw [length_wvh]; omega)
        intro h0
        rw [sub_eq_zero] at h0
        exact absurd h0.symm (ne_of_lt this)
      rw [hbk, hbk1, hck, hck1, hcs, mul_div_assoc, div_self hne, mul_one]

/-! ### Clamping behaviour at and beyond the upper source edge -/

/-- C3 (amended): beyond the source's last bin edge only the *final* target
edge is clamped to the source's final cumulative value; every non-final
target edge beyond the source's last bin edge evaluates to the interpolant's
fill value `0`, not to the final cumulative value. -/
theorem rebin_clamps_only_last_edge (wv fx nwv : List ℚ)
    (hc : List.Chain' (· < ·) wv) (h2 : 2 ≤ wv.length) (hf : fx.length = wv.length) :
    (∀ k, k < nwv.length →
      (wvh wv).getD (wv.length - 1) 0 < (bwv nwv).getD k 0 →
      (newcum wv fx nwv).getD k 0 = 0) ∧
    ((wvh wv).getD (wv.length - 1) 0 < (bwv nwv).getD nwv.length 0 →
      (newcum wv fx nwv).getD nwv.length 0
        = (cumsum (prodB fx (dwv wv))).getD (wv.length - 1) 0) := by
  constructor
  · intro k hk hgt
    rw [newcum_getD_lt wv fx nwv k hk]
    exact fcum_gt_last wv fx hc h2 hf _ hgt
  · intro hgt
    have hwl : (wvh wv).length - 1 = wv.length - 1 := by rw [length_wvh]
    have hbl : (bwv nwv).length - 1 = nwv.length := by rw [length_bwv]; omega
    have hml : ((bwv nwv).map (fcum wv fx)).length = nwv.length + 1 := by
      rw [List.length_map, length_bwv]
    unfold newcum
    rw [if_pos (by rw [hwl, hbl]; exact hgt)]
    rw [List.getD_eq_getElem _ _ (by rw [List.length_set, hml]; omega)]
    have hidx : ((bwv nwv).map (fcum wv fx)).length - 1 = nwv.length := by rw [hml]; omega
    rw [hidx, List.getElem_set_self, length_cprod wv fx hf h2]

/-! ### The lower boundary of the cumulative curve's domain -/

lemma cprod_zero (wv fx : List ℚ) (hf : fx.length = wv.length) (h2 : 2 ≤ wv.length) :
    (cumsum (prodB fx (dwv wv))).getD 0 0 = fx.getD 0 0 * (dwv wv).getD 0 0 := by
  have hpl : (prodB fx (dwv wv)).length = wv.length := by
    rw [prodB_eq_zipWith _ _ (by rw [length_dwv]; exact hf) (by rw [length_dwv]; exact h2),
      List.length_zipWith, length_dwv]
    omega
  rw [cumsum_getD_zero _ (by rw [hpl]; omega),
    prodB_eq_zipWith _ _ (by rw [length_dwv]; exact hf) (by rw [length_dwv]; exact h2),
    getD_zipWith _ (by omega) (by rw [length_dwv]; omega)]

/-- C9: the cumulative flux curve's domain begins at the midpoint of the
first two source wavelengths; its value there is already the whole first
bin's integrated flux `flux[0] * dwv[0]`; every point strictly below that
midpoint evaluates to exactly `0`; and therefore a target bin whose lower
edge is below the midpoint and whose upper edge is at or above it is
credited the entire first source bin's integrated flux at once, plus the
overlap-weighted flux beyond the midpoint. -/
theorem rebin_first_bin_credited_at_once (wv fx : List ℚ)
    (hc : List.Chain' (· < ·) wv) (h2 : 2 ≤ wv.length) (hf : fx.length = wv.length) :
    (wvh wv).getD 0 0 = (wv.getD 0 0 + wv.getD 1 0) / 2 ∧
    fcum wv fx ((wvh wv).getD 0 0) = fx.getD 0 0 * (dwv wv).getD 0 0 ∧
    (∀ x : ℚ, x < (wvh wv).getD 0 0 → fcum wv fx x = 0) ∧
    (∀ a t : ℚ, a < (wvh wv).getD 0 0 → (wvh wv).getD 0 0 ≤ t →
      t ≤ (wvh wv).getD (wv.length - 1) 0 →
      fcum wv fx t - fcum wv fx a
        = fx.getD 0 0 * (dwv wv).getD 0 0 + srcOverlapSum wv fx ((wvh wv).getD 0 0) t) := by
  have hmid := wvh_getD_mid wv 0 (by omega)
  have hknot : fcum wv fx ((wvh wv).getD 0 0) = fx.getD 0 0 * (dwv wv).getD 0 0 := by
    rw [fcum_knot wv fx hc h2 hf 0 (by omega), cprod_zero wv fx hf h2]
  refine ⟨hmid, hknot, fun x hx => fcum_lt_first wv fx h2 hf x hx, fun a t ha ht htl => ?_⟩
  have hza : fcum wv fx a = 0 := fcum_lt_first wv fx h2 hf a ha
  have hsub := fcum_sub_eq wv fx hc h2 hf ((wvh wv).getD 0 0) t (le_refl _) ht htl
  rw [hknot] at hsub
  rw [hza]
  linarith

/-! ### Edge and width derivation (claim C7) -/

/-- C7: the derived source bin edges and widths obey exactly the midpoint /
mirrored-end / forward-difference / doubled-first-gap formulas stated in
the specification. -/
theorem rebin_edge_width_derivation (wv : List ℚ) (h2 : 2 ≤ wv.length) :
    (wvh wv).length = wv.length ∧ (dwv wv).length = wv.length ∧
    (∀ i, i + 1 < wv.length →
      (wvh wv).getD i 0 = (wv.getD i 0 + wv.getD (i + 1) 0) / 2) ∧
    (wvh wv).getD (wv.length - 1) 0
      = wv.getD (wv.length - 1) 0
        + (wv.getD (wv.length - 1) 0 - wv.getD (wv.length - 2) 0) / 2 ∧
    (∀ i, 1 ≤ i → i < wv.length →
      (dwv wv).getD i 0 = (wvh wv).getD i 0 - (wvh wv).getD (i - 1) 0) ∧
    (dwv wv).getD 0 0 = 2 * ((wvh wv).getD 0 0 - wv.getD 0 0) :=
  ⟨length_wvh wv, length_dwv wv, fun i hi => wvh_getD_mid wv i hi,
   wvh_getD_last wv (by omega), fun i h1 hi => dwv_getD_succ wv i h1 hi,
   dwv_getD_zero wv (by omega)⟩

/-- Witness for C7 at the concrete grid `[1, 2, 4]`. -/
theorem rebin_edge_width_derivation_witness :
    (wvh [(1 : ℚ), 2, 4]).getD 1 0
        = (([(1 : ℚ), 2, 4]).getD 1 0 + ([(1 : ℚ), 2, 4]).getD 2 0) / 2 ∧
      (dwv [(1 : ℚ), 2, 4]).getD 0 0
        = 2 * ((wvh [(1 : ℚ), 2, 4]).getD 0 0 - ([(1 : ℚ), 2, 4]).getD 0 0) := by
  have h := rebin_edge_width_derivation [(1 : ℚ), 2, 4] (by decide)
  exact ⟨h.2.2.1 1 (by decide), h.2.2.2.2.2⟩

/-! ### Purity and the returned spectrum's uncertainty (claims C8, C10) -/

/-- C8: `rebin` leaves the receiver unchanged (the method body assigns to no
attribute of `self`) and its returned value depends only on the receiver's
dispersion and flux arrays — two receivers agreeing on those produce the
same result, whatever their uncertainties. -/
theorem rebin_pure_no_side_effects (s t : XSpec) (nwv : List ℚ)
    (hd : s.dispersion = t.dispersion) (hfx : s.flux = t.flux) :
    (s.rebinM nwv).1 = s ∧ (s.rebinM nwv).2 = (t.rebinM nwv).2 := by
  constructor
  · rfl
  · unfold XSpec.rebinM
    rw [hd, hfx]

/-- Witness for C8: two receivers differing only in uncertainty. -/
theorem rebin_pure_no_side_effects_witness :
    (XSpec.rebinM ⟨[1, 2], [3, 4], some (Uncert.stdDev [1, 1])⟩ [1, 2]).1
        = (⟨[1, 2], [3, 4], some (Uncert.stdDev [1, 1])⟩ : XSpec) ∧
      (XSpec.rebinM ⟨[1, 2], [3, 4], some (Uncert.stdDev [1, 1])⟩ [1, 2]).2
        = (XSpec.rebinM ⟨[1, 2], [3, 4], none⟩ [1, 2]).2 :=
  rebin_pure_no_side_effects ⟨[1, 2], [3, 4], some (Uncert.stdDev [1, 1])⟩
    ⟨[1, 2], [3, 4], none⟩ [1, 2] rfl rfl

/-- C10: whatever the input spectrum's uncertainty, the spectrum returned by
`rebin` carries no uncertainty, so its `sig` accessor yields `None`. -/
theorem rebin_output_sig_none (s : XSpec) (nwv : List ℚ) (r : XSpec)
    (h : (s.rebinM nwv).2 = Except.ok r) : r.sig = none := by
  unfold XSpec.rebinM at h
  cases hr : rebin s.dispersion s.flux nwv with
  | error e => rw [hr] at h; simp [Except.map] at h
  | ok nfx =>
    rw [hr] at h
    simp only [Except.map] at h
    have : fromArray nwv nfx none = r := by
      injection h
    rw [← this]
    rfl

/-- Witness for C10: an input with a standard-deviation uncertainty. -/
theorem rebin_output_sig_none_witness :
    XSpec.sig ⟨[1, 2, 3], [10, 10, 10], none⟩ = none :=
  rebin_output_sig_none ⟨[1, 2, 3], [10, 10, 10], some (Uncert.stdDev [1, 1, 1])⟩ [1, 2, 3]
    ⟨[1, 2, 3], [10, 10, 10], none⟩ (by norm_num [XSpec.rebinM, rebin, rebinCore, newcum,
      fcum, srcPts, bwv, wvh, dwv, cumsum, cumAux, prodB, interpL, List.rotate, Except.map,
      fromArray])

/-! ### Concrete evaluations: witnesses and counterexamples -/

/-- Witness for C1 (amended): source `[1,2,3,4,5]` with uniform flux 10
rebinned onto `[2,3,4]`; the single interior bin carries exactly the source
flux over its span. -/
theorem rebin_conserves_interior_flux_witness :
    rebin [1, 2, 3, 4, 5] [10, 10, 10, 10, 10] [2, 3, 4]
        = Except.ok (rebinCore [1, 2, 3, 4, 5] [10, 10, 10, 10, 10] [2, 3, 4]) ∧
      ∑ k ∈ Finset.Ico 1 2,
          (rebinCore [1, 2, 3, 4, 5] [10, 10, 10, 10, 10] [2, 3, 4]).getD k 0
            * ((bwv [2, 3, 4]).getD (k + 1) 0 - (bwv [2, 3, 4]).getD k 0)
        = srcOverlapSum [1, 2, 3, 4, 5] [10, 10, 10, 10, 10]
            ((bwv [2, 3, 4]).getD 1 0) ((bwv [2, 3, 4]).getD 2 0) :=
  rebin_conserves_interior_flux [1, 2, 3, 4, 5] [10, 10, 10, 10, 10] [2, 3, 4]
    (by norm_num [List.chain'_cons]) (by norm_num) (by norm_num)
    (by norm_num [List.chain'_cons]) (by norm_num)
    (by norm_num [wvh, bwv, dwv, List.rotate]) (by norm_num [wvh, bwv, dwv, List.rotate])

/-- Counterexample to C1 as stated: the target `[1, 6/5, 3, 4]` has its span
`[1, 4]` inside the source span `[1, 5]`, yet the interior rebinned flux sum
is 30 while the source flux over the same interval is 24 — far outside any
small relative tolerance.  (The first interior target edge 1.1 falls below
the first source bin edge 1.5, where the cumulative curve is filled with 0.) -/
theorem rebin_conservation_counterexample :
    rebin [1, 2, 3, 4, 5] [10, 10, 10, 10, 10] [1, 6/5, 3, 4] = Except.ok [0, 16, 10, 10] ∧
    (∑ k ∈ Finset.Ico 1 3,
        (rebinCore [1, 2, 3, 4, 5] [10, 10, 10, 10, 10] [1, 6/5, 3, 4]).getD k 0
          * ((bwv [1, 6/5, 3, 4]).getD (k + 1) 0 - (bwv [1, 6/5, 3, 4]).getD k 0)) = 30 ∧
    srcOverlapSum [1, 2, 3, 4, 5] [10, 10, 10, 10, 10]
        ((bwv [1, 6/5, 3, 4]).getD 1 0) ((bwv [1, 6/5, 3, 4]).getD 3 0) = 24 ∧
    (30 : ℚ) - 24 > 24 * (1 / 1000000) := by
  refine ⟨?_, ?_, ?_, by norm_num⟩ <;>
    norm_num [rebin, rebinCore, newcum, fcum, srcPts, bwv, wvh, dwv, cumsum, cumAux, prodB,
      interpL, binsOf, srcOverlapSum, overlapLen, List.rotate, Finset.sum_Ico_eq_sum_range,
      Finset.sum_range_succ, max_def, min_def]

/-- Counterexample to C2 as stated: a non-monotonic target wavelength grid
`[2, 4, 3]` is processed without any error (no `InvalidInputError` exists in
the code, and monotonicity is never checked). -/
theorem rebin_accepts_nonmonotonic_target :
    rebin [1, 2, 3, 4, 5] [10, 10, 10, 10, 10] [2, 4, 3] = Except.ok [25/2, 10, 10] := by
  norm_num [rebin, rebinCore, newcum, fcum, srcPts, bwv, wvh, dwv, cumsum, cumAux, prodB,
    interpL, List.rotate]

/-- C2 (amended): the shape constraints that do fail, fail with the generic
array-library errors of the statements that hit them — a 5-wavelength /
4-flux mismatch raises the broadcasting `ValueError` at `flux * dwv`, a
one-sample target raises `IndexError` at `new_wv[1]`, a one-sample source
raises `ValueError` inside `interp1d`, an empty source raises `IndexError`
— never a dedicated `InvalidInputError`. -/
theorem rebin_shape_failures_are_generic_errors :
    rebin [1, 2, 3, 4, 5] [10, 10, 10, 10] [2, 3] = Except.error PyErr.valueError ∧
    rebin [1, 2] [10, 10] [5] = Except.error PyErr.indexError ∧
    rebin [1] [10] [1, 2] = Except.error PyErr.valueError ∧
    rebin [] [] [1, 2] = Except.error PyErr.indexError := by
  refine ⟨?_, ?_, ?_, ?_⟩ <;> norm_num [rebin]

/-- Counterexample to C3 as stated: rebinning `[1,2,3]` (flux 10) onto
`[4,5,6]` — entirely beyond the source — yields `[-30, 0, 30]`; the last
output bin's flux 30 exceeds the last source bin's flux density 10, because
the intermediate target edges beyond the source's last edge evaluate to the
fill value 0 while only the final edge is clamped to the final cumulative
value. -/
theorem rebin_flux_exceeds_clamp_beyond_source :
    rebin [1, 2, 3] [10, 10, 10] [4, 5, 6] = Except.ok [-30, 0, 30] ∧
    (rebinCore [1, 2, 3] [10, 10, 10] [4, 5, 6]).getD 2 0
      > ([10, 10, 10] : List ℚ).getD 2 0 := by
  refine ⟨?_, ?_⟩ <;>
    norm_num [rebin, rebinCore, newcum, fcum, srcPts, bwv, wvh, dwv, cumsum, cumAux, prodB,
      interpL, List.rotate]

/-- Witness for C3 (amended) on `[1,2,3]` flux 10 rebinned onto `[4,5,6]`:
the non-final beyond-source edge gets 0, the final edge gets the total 30. -/
theorem rebin_clamps_only_last_edge_witness :
    (newcum [1, 2, 3] [10, 10, 10] [4, 5, 6]).getD 1 0 = 0 ∧
    (newcum [1, 2, 3] [10, 10, 10] [4, 5, 6]).getD 3 0
      = (cumsum (prodB [10, 10, 10] (dwv [1, 2, 3]))).getD 2 0 := by
  have h := rebin_clamps_only_last_edge [1, 2, 3] [10, 10, 10] [4, 5, 6]
    (by norm_num [List.chain'_cons]) (by norm_num) (by norm_num)
  exact ⟨h.1 1 (by norm_num) (by norm_num [wvh, bwv, dwv, List.rotate]),
    h.2 (by norm_num [wvh, bwv, dwv, List.rotate])⟩

/-- Counterexample to C4 as stated: the spec scenario (source `[1..5]`,
uniform flux 10, target `[1.5, 2.5, 3.5]`) actually yields `[15, 10, 10]`,
not `≈ [10, 10, 10]`: the first output bin is off by 50%. -/
theorem rebin_uniform_scenario_counterexample :
    rebin [1, 2, 3, 4, 5] [10, 10, 10, 10, 10] [3/2, 5/2, 7/2] = Except.ok [15, 10, 10] ∧
    (15 : ℚ) - 10 > 10 * (1 / 1000000) := by
  refine ⟨?_, by norm_num⟩
  norm_num [rebin, rebinCore, newcum, fcum, srcPts, bwv, wvh, dwv, cumsum, cumAux, prodB,
    interpL, List.rotate]

/-- C4 (amended): the scenario's exact output: the two non-edge output bins
are 10, while the first (edge) output bin is 15 because its lower edge 1.0
lies below the first source bin edge 1.5 where the cumulative curve reads 0. -/
theorem rebin_uniform_scenario_actual_output :
    rebin [1, 2, 3, 4, 5] [10, 10, 10, 10, 10] [3/2, 5/2, 7/2] = Except.ok [15, 10, 10] := by
  norm_num [rebin, rebinCore, newcum, fcum, srcPts, bwv, wvh, dwv, cumsum, cumAux, prodB,
    interpL, List.rotate]

/-- Witness for C5 on a non-uniform grid and non-uniform flux. -/
theorem rebin_identity_on_own_grid_witness :
    rebin [1, 2, 4] [7, 11, 13] [1, 2, 4] = Except.ok [7, 11, 13] :=
  rebin_identity_on_own_grid [1, 2, 4] [7, 11, 13]
    (by norm_num [List.chain'_cons]) (by norm_num) (by norm_num)

/-- Counterexample to C6 as stated: a duplicated target wavelength sample
(`[1, 2, 2]`) produces a zero-width final bin, and `rebin` signals no error
at all — the normalization divides by the zero width unconditionally (the
array library emits non-finite values silently; the rational model reads
that division as 0).  No `DegenerateBinError` exists in the code. -/
theorem rebin_silent_on_degenerate_bins :
    rebin [1, 2, 3] [10, 10, 10] [1, 2, 2] = Except.ok [10, 10, 0] := by
  norm_num [rebin, rebinCore, newcum, fcum, srcPts, bwv, wvh, dwv, cumsum, cumAux, prodB,
    interpL, List.rotate]

/-- C6 (amended): `rebin` performs no degenerate-bin check whatsoever: any
inputs passing the pure shape constraints (source and target of length at
least 2, flux matching the source) produce a normal result, whatever bin
widths arise. -/
theorem rebin_no_degenerate_bin_check (wv fx nwv : List ℚ) (h2 : 2 ≤ wv.length)
    (hf : fx.length = wv.length) (hm : 2 ≤ nwv.length) :
    rebin wv fx nwv = Except.ok (rebinCore wv fx nwv) :=
  rebin_ok wv fx nwv h2 hf hm

/-- Witness for C6 (amended) at a degenerate (duplicated-sample) target. -/
theorem rebin_no_degenerate_bin_check_witness :
    rebin [1, 2, 4] [5, 5, 5] [1, 3, 3] = Except.ok (rebinCore [1, 2, 4] [5, 5, 5] [1, 3, 3]) :=
  rebin_no_degenerate_bin_check [1, 2, 4] [5, 5, 5] [1, 3, 3]
    (by norm_num) (by norm_num) (by norm_num)

/-- Witness for C9 on `[1,2,3]` with flux 10: the point 1 lies below the
first bin edge 1.5 and evaluates to 0, and a bin `[1, 2]` straddling the
edge is credited the whole first source bin plus the overlap past the edge. -/
theorem rebin_first_bin_credited_at_once_witness :
    fcum [1, 2, 3] [10, 10, 10] 1 = 0 ∧
    fcum [1, 2, 3] [10, 10, 10] 2 - fcum [1, 2, 3] [10, 10, 10] 1
      = ([10, 10, 10] : List ℚ).getD 0 0 * (dwv [1, 2, 3]).getD 0 0
        + srcOverlapSum [1, 2, 3] [10, 10, 10] ((wvh [1, 2, 3]).getD 0 0) 2 := by
  have h := rebin_first_bin_credited_at_once [1, 2, 3] [10, 10, 10]
    (by norm_num [List.chain'_cons]) (by norm_num) (by norm_num)
  exact ⟨h.2.2.1 1 (by norm_num [wvh, List.rotate]),
    h.2.2.2 1 2 (by norm_num [wvh, List.rotate]) (by norm_num [wvh, List.rotate])
      (by norm_num [wvh, List.rotate])⟩
